import Mathlib

/-!
Verification development for the BloArk batch pipeline (builder / warehouse
allocator / modifier engine).

The Python sources are shallowly embedded:
* file contents are `List Char` (one `Char` per byte; all inputs of interest
  are ASCII, where `f.tell()` equals the character count),
* Python `str` values are `String` or `List Char` as convenient,
* sizes returned by `os.path.getsize` are naturals (bytes), and the
  gigabyte-valued `get_file_size` is exact rational arithmetic,
* the mutable allocator state is a `WarehouseState` record threaded through
  the operations,
* user-defined modifier profiles are total functions
  `B → M → Option B × Option M` (an exception inside a profile is handled by
  the engine exactly like returning a `None` record, see
  `bloark/modifier.py:229-237`, so totality loses no behaviour relevant to
  the theorems below).

Every definition is translated from the repository sources; the doc comment
of each definition names the file and lines it embeds.  Definitions whose
name ends in `SpecModel` are instead written from the specification text and
are only used to compare spec semantics with code semantics.
-/

/-! ## Character-level file primitives -/

/-- Model of Python's `f.readline()` on the remaining file content: returns
the first line (including its trailing newline, if present) and the rest of
the content.  An empty result means end of file. -/
def readLine : List Char → List Char × List Char
  | [] => ([], [])
  | c :: cs =>
      if c = '\n' then ([c], cs)
      else
        let p := readLine cs
        (c :: p.1, p.2)

/-- Split a content on newline separators (Python `str.split('\n')`
semantics): `"a\n\n"` becomes `["a", "", ""]`. -/
def splitNl : List Char → List (List Char)
  | [] => [[]]
  | c :: cs =>
      if c = '\n' then [] :: splitNl cs
      else
        match splitNl cs with
        | [] => [[c]]
        | l :: ls => (c :: l) :: ls

/-- Loop body of `get_line_positions` (`src/bloark/utils.py:238-250`):
while the line read is non-empty, record the position at which it started
and advance the position by the line length (`f.tell()` after the read).
The Python loop's `if len(line) > 0` guard is the match on a non-empty
line below (the `while line` condition already guarantees it).  The fuel
argument dominates the number of lines; `get_line_positions` supplies
enough fuel for the whole content. -/
def linePositionsGo : Nat → Nat → List Char → List Nat
  | 0, _, _ => []
  | fuel + 1, pos, content =>
    match readLine content with
    | ([], _) => []
    | (c :: l, rest) => pos :: linePositionsGo fuel (pos + (c :: l).length) rest

/-- `get_line_positions` from `src/bloark/utils.py:223-250`: positions at
which `f.readline()` started, for every line read until EOF. -/
def get_line_positions (content : List Char) : List Nat :=
  linePositionsGo (content.length + 1) 0 content

/-- Modelled from the spec: `line_offsets(path)` is "the byte offset of the
first byte of each non-empty line" (spec §4.2); an empty line is a line
consisting of just its newline.  Written from the spec's words, to be
compared with `get_line_positions` (the claim C8 reading). -/
def nonEmptyLinePositionsSpecModel (content : List Char) : List Nat :=
  (get_line_positions content).filter
    (fun p => !((content.drop p).take 1 = ['\n'] : Bool))

/-- `read_line_in_file` from `src/bloark/utils.py:253-272`: seek to a
position and read one line. -/
def read_line_in_file (content : List Char) (position : Nat) : List Char :=
  (readLine (content.drop position)).1

/-! ## `parse_schema` (`src/bloark/utils.py:317-336`) -/

/-- Python values as seen by `parse_schema`: JSON-decoded objects.  A float's
numeric value is never inspected by `parse_schema` (only its type name), so
the constructor carries no payload. -/
inductive PyVal where
  | pyInt (n : Int)
  | pyStr (s : String)
  | pyBool (b : Bool)
  | pyNone
  | pyFloat
  | pyList (xs : List PyVal)
  | pyDict (es : List (String × PyVal))

/-- Shapes returned by `parse_schema`: a scalar type name (or `"empty"`), a
dict of shapes, or the two-element list `[shape_of_first, length]`. -/
inductive Schema where
  | name (s : String)
  | dict (es : List (String × Schema))
  | listShape (s : Schema) (n : Nat)

mutual

/-- `parse_schema` from `src/bloark/utils.py:317-336`: dicts map to the dict
of the shapes of their values, non-empty lists to `[shape(first), len]`,
empty containers to `"empty"`, and scalars to their Python type name. -/
def parse_schema : PyVal → Schema
  | .pyDict es => if es.isEmpty then .name "empty" else .dict (parse_entries es)
  | .pyList [] => .name "empty"
  | .pyList (x :: xs) => .listShape (parse_schema x) (xs.length + 1)
  | .pyInt _ => .name "int"
  | .pyStr _ => .name "str"
  | .pyBool _ => .name "bool"
  | .pyNone => .name "NoneType"
  | .pyFloat => .name "float"

/-- The dict comprehension `{key: parse_schema(value) for key, value in
obj.items()}` of `src/bloark/utils.py:330`. -/
def parse_entries : List (String × PyVal) → List (String × Schema)
  | [] => []
  | (k, v) :: es => (k, parse_schema v) :: parse_entries es

end

/-! ## `get_file_list` (`src/bloark/utils.py:32-80`) -/

/-- A file-system entry: a regular file, or a directory with named
children. -/
inductive FSEntry where
  | file : FSEntry
  | dir : List (String × FSEntry) → FSEntry

/-- Python `name.startswith('.')` for the dot-file check of
`src/bloark/utils.py:66`. -/
def startsDot (n : String) : Bool :=
  match n.toList with
  | '.' :: _ => true
  | _ => false

/-- The `os.walk` loop of `src/bloark/utils.py:64-69`: enumerate every
regular file under a directory, skipping files (not directories) whose name
starts with a dot, joining names with `/` as `os.path.join` does.  `os.walk`
lists each directory's files before descending; this recursion interleaves
them instead, which is immaterial because `get_file_list` sorts the result
(`src/bloark/utils.py:79`). -/
def walkDir (base : String) : List (String × FSEntry) → List String
  | [] => []
  | (n, .file) :: rest =>
      (if startsDot n then [] else [base ++ "/" ++ n]) ++ walkDir base rest
  | (n, .dir es) :: rest => walkDir (base ++ "/" ++ n) es ++ walkDir base rest

/-- Python `candidate_path.endswith(ext)`. -/
def endsWithL (s ext : String) : Bool :=
  decide (ext.toList.length ≤ s.toList.length) &&
    decide (s.toList.drop (s.toList.length - ext.toList.length) = ext.toList)

/-- `endswith_extensions` from `src/bloark/utils.py:73-76`: with no
extension list (or an empty one) everything passes, otherwise the path must
end with one of the extensions. -/
def endswith_extensions (extensions : Option (List String)) (candidate_path : String) : Bool :=
  match extensions with
  | none => true
  | some [] => true
  | some exts => exts.any (fun ext => endsWithL candidate_path ext)

/-- Code-point comparison of strings as lists of characters (Python string
`<=`). -/
def lexLeb : List Char → List Char → Bool
  | [], _ => true
  | _ :: _, [] => false
  | a :: as, b :: bs =>
      if a.val < b.val then true else if b.val < a.val then false else lexLeb as bs

/-- Python `sorted` on strings compares code points. -/
def strLeb (a b : String) : Bool := lexLeb a.toList b.toList

/-- Insertion step of the deterministic sort in `src/bloark/utils.py:79`. -/
def insertStr (x : String) : List String → List String
  | [] => [x]
  | y :: ys => if strLeb x y then x :: y :: ys else y :: insertStr x ys

/-- `sorted(...)` of `src/bloark/utils.py:79` (insertion sort; Python's sort
is stable, and on deduplicated keys any comparison sort agrees). -/
def sortStrings : List String → List String
  | [] => []
  | x :: xs => insertStr x (sortStrings xs)

/-- `get_file_list` from `src/bloark/utils.py:32-80`.  The existence check of
line 55 is implicit (the model is handed the entry found at the path).  A
regular-file path is returned as a one-element list before any filtering
(line 59-60); a directory is walked, filtered by extension, deduplicated and
sorted (lines 63-80). -/
def get_file_list (input_path : String) (entry : FSEntry)
    (extensions : Option (List String)) : List String :=
  match entry with
  | .file => [input_path]
  | .dir entries =>
      sortStrings
        (((walkDir input_path entries).dedup).filter
          (fun f => endswith_extensions extensions f))

/-! ## Warehouse allocator (`src/twb/warehouse.py`) -/

/-- The allocator state of `Warehouse.__init__` (`src/twb/warehouse.py:23-43`)
that the operations read and write: the size cap `max_size` (the code's unit,
compared against `get_file_size` values), the `compress` flag, the monotonic
`warehouse_indexer`, and the `available_warehouses` / `occupied_warehouses`
lists.  The fixed name parts `'warehouse_'` and `''` are inlined. -/
structure WarehouseState where
  max_size : ℚ
  compress : Bool
  warehouse_indexer : Nat
  available_warehouses : List String
  occupied_warehouses : List String
deriving DecidableEq, Repr

/-- `get_warehouse_filenames` from `src/twb/warehouse.py:152-155`. -/
def get_warehouse_filenames (basename : String) : String × String :=
  (basename ++ ".jsonl", basename ++ ".metadata")

/-- `get_file_size` from `src/twb/warehouse.py:158-161`: the on-disk length
in bytes divided by `1000 ** 3` (gigabytes).  The byte lengths of all files
are supplied by `fsBytes`; a missing file has length `0` (the
`os.path.exists` guard of line 159-160).  Callers join paths with the
constant `output_dir` before calling; the model keys `fsBytes` by the
path relative to that directory. -/
def get_file_size (fsBytes : String → Nat) (filepath : String) : ℚ :=
  (fsBytes filepath : ℚ) / (1000 ^ 3 : ℚ)

/-- Python `str(n).zfill(5)`. -/
def zfill5 (n : Nat) : String :=
  String.mk (List.replicate (5 - (toString n).length) '0' ++ (toString n).toList)

/-- `create_warehouse` from `src/twb/warehouse.py:45-64`: build the base
name from the 5-digit zero-padded index, create (truncate) the two files,
append the base name to `available_warehouses` and increment the indexer.
File creation only affects the file system entries of the two fresh files,
which no later size query of the same call chain reads through `fsBytes`
other than as size `0`, matching a truncated file. -/
def create_warehouse (st : WarehouseState) : WarehouseState :=
  { st with
    available_warehouses :=
      st.available_warehouses ++ ["warehouse_" ++ zfill5 st.warehouse_indexer]
    warehouse_indexer := st.warehouse_indexer + 1 }

/-- The list comprehension `[w for w in self.available_warehouses if w not in
self.occupied_warehouses]` (`src/twb/warehouse.py:71,87,97`). -/
def free_warehouses (st : WarehouseState) : List String :=
  st.available_warehouses.filter (fun w => decide (w ∉ st.occupied_warehouses))

/-- Lookup in the `remaining_sizes` dict (association list in insertion
order). -/
def remLookup : List (String × ℚ) → String → Option ℚ
  | [], _ => none
  | (k, v) :: m, w => if k = w then some v else remLookup m w

/-- Assignment `remaining_sizes[w] = v`: overwrite an existing key, else
append (Python dict insertion order). -/
def remSet : List (String × ℚ) → String → ℚ → List (String × ℚ)
  | [], w, v => [(w, v)]
  | (k, x) :: m, w, v => if k = w then (w, v) :: m else (k, x) :: remSet m w v

/-- Loop body of `_sync_warehouses` (`src/twb/warehouse.py:99-103`): for each
free warehouse, default its remaining size to `max_size` when absent, and
collect `(w, remaining)` into the acceptable list when the remaining size is
positive. -/
def sync_go (max_size : ℚ) : List String → List (String × ℚ) →
    List (String × ℚ) × List (String × ℚ)
  | [], rem => (rem, [])
  | w :: ws, rem =>
      let rem1 := if (remLookup rem w).isNone then remSet rem w max_size else rem
      let rcur := (remLookup rem1 w).getD max_size
      let p := sync_go max_size ws rem1
      if 0 < rcur then (p.1, (w, rcur) :: p.2) else (p.1, p.2)

/-- Insertion step of the stable descending sort of
`src/twb/warehouse.py:104` (`sorted(..., key=..., reverse=True)`): an
element is placed before the first strictly-smaller remaining size, so
among equal keys earlier elements stay first, as Python's stable sort
guarantees. -/
def insertDesc (x : String × ℚ) : List (String × ℚ) → List (String × ℚ)
  | [] => [x]
  | y :: ys => if y.2 ≤ x.2 then x :: y :: ys else y :: insertDesc x ys

/-- The stable descending sort of `src/twb/warehouse.py:104`. -/
def sortDesc : List (String × ℚ) → List (String × ℚ)
  | [] => []
  | x :: xs => insertDesc x (sortDesc xs)

/-- `_sync_warehouses` from `src/twb/warehouse.py:95-104`: recompute the free
warehouses, default missing remaining sizes to `max_size`, and rebuild the
acceptable list sorted by remaining size, largest first. -/
def sync_warehouses (st : WarehouseState) (rem : List (String × ℚ)) :
    List (String × ℚ) × List (String × ℚ) :=
  let p := sync_go st.max_size (free_warehouses st) rem
  (p.1, sortDesc p.2)

/-- The initial `remaining_sizes` dict of `src/twb/warehouse.py:88-91`:
`max_size` minus the current payload size of each free warehouse. -/
def initRem (fsBytes : String → Nat) (st : WarehouseState) : List (String × ℚ) :=
  (free_warehouses st).map
    (fun w => (w, st.max_size - get_file_size fsBytes (get_warehouse_filenames w).1))

/-- The `_sync_warehouses(); while not acceptable_warehouses: ...` block of
`src/twb/warehouse.py:107-112`.  When even a freshly created warehouse is
not acceptable (only possible when `max_size ≤ 0`), the Python loop spins
forever creating warehouses; `none` models that divergence.  Otherwise at
most one creation is needed, because a fresh warehouse gets remaining size
`max_size > 0`. -/
def ensure_acceptable (st : WarehouseState) (rem : List (String × ℚ)) :
    Option (WarehouseState × List (String × ℚ) × List (String × ℚ)) :=
  let p1 := sync_warehouses st rem
  if p1.2 ≠ [] then some (st, p1.1, p1.2) else
    let st2 := create_warehouse st
    let p2 := sync_warehouses st2 p1.1
    if p2.2 ≠ [] then some (st2, p2.1, p2.2) else none

/-- One iteration of the `for file in files` loop of
`src/twb/warehouse.py:106-113`: the warehouse picked for the current file is
`acceptable_warehouses[0]`, the head of the descending-sorted acceptable
list, together with its remaining size. -/
def bulk_assign_step (st : WarehouseState) (rem : List (String × ℚ)) :
    Option (String × ℚ × WarehouseState × List (String × ℚ)) :=
  match ensure_acceptable st rem with
  | none => none
  | some (st1, rem1, acc) =>
      match acc with
      | [] => none
      | (w, r) :: _ => some (w, r, st1, rem1)

/-- `warehouse_assignments[w].append(file)` with dict auto-creation
(`src/twb/warehouse.py:114-116`). -/
def assignInsert (asg : List (String × List String)) (w f : String) :
    List (String × List String) :=
  if (asg.lookup w).isSome then
    asg.map (fun p => if p.1 = w then (p.1, p.2 ++ [f]) else p)
  else asg ++ [(w, [f])]

/-- The file loop of `bulk_assign` (`src/twb/warehouse.py:106-117`) followed
by the final occupation of all picked warehouses (lines 119-121, dict key
order = first-assignment order). -/
def bulk_assign_go (fsBytes : String → Nat) :
    List String → WarehouseState → List (String × ℚ) → List (String × List String) →
    Option (List (String × List String) × WarehouseState)
  | [], st, _, asg =>
      some (asg, { st with
        occupied_warehouses := st.occupied_warehouses ++ asg.map Prod.fst })
  | f :: rest, st, rem, asg =>
      match bulk_assign_step st rem with
      | none => none
      | some (w, r, st1, rem1) =>
          bulk_assign_go fsBytes rest st1
            (remSet rem1 w (r - get_file_size fsBytes f)) (assignInsert asg w f)

/-- `bulk_assign` from `src/twb/warehouse.py:83-123`. -/
def bulk_assign (fsBytes : String → Nat) (st : WarehouseState) (files : List String) :
    Option (List (String × List String) × WarehouseState) :=
  bulk_assign_go fsBytes files st (initRem fsBytes st) []

/-- `release_warehouse` from `src/twb/warehouse.py:125-145`.  The result is
the new state, the optional payload filename to compress, and whether the
`except` branch reporting `Warehouse [...] does not exist` was taken.
`list.remove` deletes the first occurrence and raises when the element is
absent; everything raised inside the `try` is caught after the mutations
already performed, leaving the rest of the state untouched. -/
def release_warehouse (fsBytes : String → Nat) (st : WarehouseState) (w : String) :
    WarehouseState × Option String × Bool :=
  if w ∈ st.occupied_warehouses then
    let st1 := { st with occupied_warehouses := st.occupied_warehouses.erase w }
    if st.max_size ≤ get_file_size fsBytes (get_warehouse_filenames w).1 then
      if w ∈ st.available_warehouses then
        ({ st1 with available_warehouses := st.available_warehouses.erase w },
          if st.compress then some (get_warehouse_filenames w).1 else none, false)
      else (st1, none, true)
    else (st1, none, false)
  else (st, none, true)

/-! ## Builder (`src/twb/builder.py`, `src/twb/builder_helpers.py`) -/

/-- One line's contribution to the regex
`^\[\[Category:(.+?)\]\]($|\n)` of `src/twb/builder_helpers.py:3` (compiled
with `re.MULTILINE`).  A match must start at a line start (`^`) and its
`($|\n)` tail forces it to extend to the line end, so per line the pattern
matches exactly when the line is `[[Category:` ++ NAME ++ `]]` with NAME
non-empty (`.` never matches a newline); the lazy group is then forced to
capture the whole middle. -/
def lineCategory (l : List Char) : Option (List Char) :=
  if 14 ≤ l.length ∧ l.take 11 = "[[Category:".toList ∧
      l.drop (l.length - 2) = "]]".toList then
    some ((l.drop 11).take (l.length - 13))
  else none

/-- `extract_categories` from `src/twb/builder_helpers.py:6-8`: all NAME
captures of the multiline pattern, in textual order. -/
def extract_categories (text : List Char) : List (List Char) :=
  (splitNl text).filterMap lineCategory

/-- The per-article accumulator of `_process_executor`
(`src/twb/builder.py:110,124,196-197`): the `article_info` keys
`source_revision` and `last_valid_text_content`. -/
structure Accumulator where
  source_revision : Option String
  last_valid_text_content : Option (List Char)
deriving DecidableEq, Repr

/-- The category-preparation step of `_inner_callback`
(`src/twb/builder.py:192-197`).  Python's `text_content[0]` is the
one-character string at index 0, compared to the nine-character string
`'#REDIRECT'` (the singleton `List Char` against `"#REDIRECT".toList`
here). -/
def updateTextAccumulator (acc : Accumulator) (revision_id : String)
    (text_content : List Char) : Accumulator :=
  if 0 < text_content.length ∧ text_content.take 1 ≠ "#REDIRECT".toList then
    { source_revision := some revision_id,
      last_valid_text_content := some text_content }
  else acc

/-- The category part of `_finalizing_metadata` (`src/twb/builder.py:157-161`):
`extract_categories(last_valid_text_content)` when the accumulator holds a
text, else `[]`. -/
def finalize_categories (acc : Accumulator) : List (List Char) :=
  match acc.last_valid_text_content with
  | some t => extract_categories t
  | none => []

/-- The `iter(f.readline, '')` enumeration of a file's lines
(`src/twb/builder.py:240`): repeated `readLine` until it returns the empty
string.  Each returned line still carries its trailing newline (only a last
line not terminated by a newline lacks one). -/
def readLinesGo : Nat → List Char → List (List Char)
  | 0, _ => []
  | fuel + 1, content =>
    match readLine content with
    | ([], _) => []
    | (c :: l, rest) => (c :: l) :: readLinesGo fuel rest

/-- All lines of a content as `iter(f.readline, '')` yields them. -/
def readLines (content : List Char) : List (List Char) :=
  readLinesGo (content.length + 1) content

/-- `Builder._warehouse_executor` from `src/twb/builder.py:226-261` on one
warehouse: starting from the current payload content `wh0` (the file is
opened for append), for each `(processed_file_content, metadata)` pair
record `byte_start = f.tell()`, write every line of the processed file as
`line + '\n'` (line 241), record `byte_end = f.tell()`, and emit the
metadata line extended with both offsets.  Metadata values other than the
two offsets are carried opaquely in `μ`. -/
def warehouse_executor {μ : Type} (wh0 : List Char) :
    List (List Char × μ) → List Char × List (μ × Nat × Nat)
  | [] => (wh0, [])
  | (processed, meta) :: rest =>
      let start_len_warehouse := wh0.length
      let wh1 := wh0 ++ ((readLines processed).map (fun line => line ++ ['\n'])).flatten
      let p := warehouse_executor wh1 rest
      (p.1, (meta, start_len_warehouse, wh1.length) :: p.2)

/-- The content the builder's process stage gives a processed per-article
file (`src/twb/builder.py:189-190`): one `json.dumps(record) + '\n'` per
revision record.  Record texts are opaque line bodies here. -/
def processedFileContent (records : List (List Char)) : List Char :=
  (records.map (fun r => r ++ ['\n'])).flatten

/-- Necessary shape of "the byte range decodes to a non-empty sequence of
JSON lines" (spec P1): there is a non-empty list of lines, each non-empty
and newline-free (every serialized JSON object is), whose
newline-terminated concatenation is exactly the byte range.  The spec
additionally requires each line's `article_id` to equal the metadata id;
refuting this weaker shape refutes the full property. -/
def decodesAsJsonlLines (range : List Char) (lines : List (List Char)) : Prop :=
  lines ≠ [] ∧ (∀ l ∈ lines, l ≠ [] ∧ '\n' ∉ l) ∧
    range = (lines.map (fun l => l ++ ['\n'])).flatten

/-! ## Modifier engine (`src/bloark/modifier.py`) -/

/-- A registered `ModifierProfile.block` (`src/bloark/modifier.py:20-46`):
from a record and the segment metadata to the optional replacement record
and optional segment metadata. -/
def ModifierChain (B M : Type) : Type := List (B → M → Option B × Option M)

/-- The modifier `for` loop of `_modify_executor`
(`src/bloark/modifier.py:224-241`) on one record: starting from
`modified_block = original_block`, each profile in turn is called as
`modifier.block(content=modified_block, metadata=segment_metadata)` — the
`segment_metadata` local, never the previous call's returned metadata.  The
loop breaks when the record has become `None`, and sets `skip_segment` and
breaks when the returned metadata is `None`.  The result is the final
`modified_block` and the `skip_segment` flag. -/
def applyChain {B M : Type} : ModifierChain B M → M → Option B → Option B × Bool
  | [], _, modified_block => (modified_block, false)
  | _ :: _, _, none => (none, false)
  | modifier :: rest, segment_metadata, some b =>
      match modifier b segment_metadata with
      | (modified_block, none) => (modified_block, true)
      | (modified_block, some _) => applyChain rest segment_metadata modified_block

/-- The record loop of `_modify_executor` (`src/bloark/modifier.py:220-251`)
over the records of one segment: each record runs through the chain; on
`skip_segment` the loop breaks (later records are neither read nor
written), a `None` record is skipped, any other record is written to the
new payload.  Returns the records written and the final `skip_segment`
flag. -/
def modifySegmentGo {B M : Type} (mods : ModifierChain B M) (segment_metadata : M) :
    List B → List B × Bool
  | [] => ([], false)
  | r :: rs =>
      match applyChain mods segment_metadata (some r) with
      | (_, true) => ([], true)
      | (none, false) => modifySegmentGo mods segment_metadata rs
      | (some b, false) =>
          let p := modifySegmentGo mods segment_metadata rs
          (b :: p.1, p.2)

/-- The segment loop of `_modify_executor` (`src/bloark/modifier.py:209-267`)
with the payload modelled at record granularity: positions count records
written (each write of `json.dumps(block) + '\n'` advances `f.tell()` by one
record; byte-level offsets would only rescale the numbers).  For every
segment the code records `byte_start` before the record loop and — with no
`skip_segment` check at the finalization block of lines 258-263 — appends a
metadata line `(segment_metadata, byte_start, byte_end)` unconditionally.
All segments are modelled as landing in one warehouse, which is what
happens while no warehouse reaches `max_size` (8 GB) mid-run. -/
def modify_executor {B M : Type} (mods : ModifierChain B M) :
    List (M × List B) → List B → List (M × Nat × Nat) →
    List B × List (M × Nat × Nat)
  | [], payload, metaOut => (payload, metaOut)
  | (segment_metadata, records) :: rest, payload, metaOut =>
      let byte_start := payload.length
      let p := modifySegmentGo mods segment_metadata records
      let payload1 := payload ++ p.1
      modify_executor mods rest payload1
        (metaOut ++ [(segment_metadata, byte_start, payload1.length)])

/-- `_modify_executor` (`src/bloark/modifier.py:133-272`) restricted to its
per-segment record rewriting: the new payload and new metadata lines
produced from the old segments. -/
def modify_warehouse {B M : Type} (mods : ModifierChain B M)
    (segments : List (M × List B)) : List B × List (M × Nat × Nat) :=
  modify_executor mods segments [] []

/-- Modelled from the spec (§4.7): the transform chain with metadata
propagation — "Returning `(record', metadata')`: replace this record with
`record'`, propagate `metadata'` as the segment metadata seen by subsequent
modifiers", a `None` record breaks the chain immediately, and a `None`
metadata drops the segment.  Returns the record, the propagated metadata
and the segment-drop flag. -/
def applyChainSpecModel {B M : Type} : ModifierChain B M → M → Option B →
    Option B × M × Bool
  | [], m, mb => (mb, m, false)
  | _ :: _, m, none => (none, m, false)
  | modifier :: rest, m, some b =>
      match modifier b m with
      | (mb1, none) => (mb1, m, true)
      | (mb1, some m1) => applyChainSpecModel rest m1 mb1

/-! ## Concrete inputs used by the claim theorems -/

/-- The chain used for C1: drop the whole segment when record `2` is seen,
otherwise keep the record and return the metadata unchanged. -/
def dropC1 : ModifierChain Nat Nat :=
  [fun b m => if b = 2 then (some b, none) else (some b, some m)]

/-- The profile used for C2: fold the received metadata into the record
(`100 * m + b`) and return the incremented metadata `m + 1`, so whether
metadata modifications are propagated is visible in the record output. -/
def qC2 : Nat → Nat → Option Nat × Option Nat :=
  fun b m => (some (100 * m + b), some (m + 1))

/-- File sizes for the C3 counterexample: the payload of `warehouse_00000`
holds 9 GB (`get_file_size` = 9), the input file `f` holds 5 GB. -/
def fsC3 : String → Nat := fun p =>
  if p = "warehouse_00000.jsonl" then 9000000000
  else if p = "f" then 5000000000 else 0

/-- Allocator state for the C3 counterexample: cap 10 (GB), one free
warehouse `warehouse_00000`. -/
def stC3 : WarehouseState :=
  { max_size := 10, compress := true, warehouse_indexer := 1,
    available_warehouses := ["warehouse_00000"], occupied_warehouses := [] }

/-- File sizes for the C4 counterexample: the payload of `warehouse_00000`
is 12 bytes long. -/
def fsC4 : String → Nat := fun p => if p = "warehouse_00000.jsonl" then 12 else 0

/-- Allocator state for the C4 counterexample: `max_size` 12,
`warehouse_00000` occupied and available. -/
def stC4 : WarehouseState :=
  { max_size := 12, compress := true, warehouse_indexer := 1,
    available_warehouses := ["warehouse_00000"], occupied_warehouses := ["warehouse_00000"] }

/-- The `remaining_sizes` dict after the C3 witness step (10 GB cap minus
the 9 GB already in `warehouse_00000`). -/
def remC3 : List (String × ℚ) := [("warehouse_00000", 1)]

/-- File sizes for the C4 witness: the payload of `warehouse_00000` holds
12 GB (12 * 10^9 bytes), reaching the cap of `stC4`. -/
def fsC4big : String → Nat := fun p =>
  if p = "warehouse_00000.jsonl" then 12000000000 else 0

/-- Allocator state for the C7 witness: `warehouse_00000` exists but is not
occupied (e.g. it was already released once). -/
def stC7 : WarehouseState :=
  { max_size := 12, compress := true, warehouse_indexer := 1,
    available_warehouses := ["warehouse_00000"], occupied_warehouses := [] }

/-- Directory tree for the C10 witness: a plain file, a dot-file, and a
subdirectory with an `.xml` file. -/
def treeC10 : List (String × FSEntry) :=
  [("a.txt", .file), (".hidden", .file), ("sub", .dir [("b.xml", .file)])]

/-! ## Helper lemmas -/

theorem splitNl_ne_nil (cs : List Char) : splitNl cs ≠ [] := by
  match cs with
  | [] => simp [splitNl]
  | c :: cs =>
      simp only [splitNl]
      by_cases h : c = '\n'
      · simp [h]
      · simp only [if_neg h]
        cases splitNl cs <;> simp

theorem splitNl_cons_line (l t : List Char) (h : '\n' ∉ l) :
    splitNl (l ++ '\n' :: t) = l :: splitNl t := by
  induction l with
  | nil => simp [splitNl]
  | cons c cs ih =>
      have hc : c ≠ '\n' := fun hc => h (hc ▸ List.mem_cons_self c cs)
      have hcs : '\n' ∉ cs := fun hm => h (List.mem_cons_of_mem c hm)
      simp only [List.cons_append, splitNl, if_neg hc, List.append_eq]
      rw [ih hcs]

theorem splitNl_join_lines (lines : List (List Char)) (h : ∀ l ∈ lines, '\n' ∉ l) :
    splitNl ((lines.map (fun l => l ++ ['\n'])).flatten) = lines ++ [[]] := by
  induction lines with
  | nil => simp [splitNl]
  | cons l ls ih =>
      have hl : '\n' ∉ l := h l (List.mem_cons_self l ls)
      have hls : ∀ x ∈ ls, '\n' ∉ x := fun x hx => h x (List.mem_cons_of_mem l hx)
      simp only [List.map_cons, List.flatten_cons, List.append_assoc, List.singleton_append]
      rw [splitNl_cons_line l _ hl, ih hls]
      simp

/-! ## C1, C2: modifier engine behaviour at concrete chains -/

/-- C1: on the segment `[1, 2, 3]` whose second record makes the modifier
return `(_, None)`, `_modify_executor` stops writing records of the segment
(records `2` and `3` are absent), but the record already written (`1`)
remains in the new payload and a metadata line for the segment IS appended:
the finalization block `src/bloark/modifier.py:258-263` runs without any
`skip_segment` check.  This contradicts the claim that no metadata line is
emitted for a dropped segment. -/
theorem bloark_segment_drop_still_emits_metadata :
    modify_warehouse dropC1 [(0, [1, 2, 3])] = ([1], [(0, 0, 1)]) ∧
    (modify_warehouse dropC1 [(0, [1, 2, 3])]).2 ≠ [] := by
  constructor
  · rfl
  · intro h
    rw [modify_warehouse] at h
    simp [modify_executor, modifySegmentGo, applyChain, dropC1] at h

/-- C2: metadata returned by a profile is NOT propagated — each profile of
the chain, and each later record of the segment, is called with the
original `segment_metadata` (`src/bloark/modifier.py:230-233` always passes
`metadata=segment_metadata` and never assigns `segment_metadata` from
`modified_segment_metadata`).  With `qC2` the second call would see
metadata `1` (yielding record `105`) were the spec's propagation followed;
the code yields record `5`.  Likewise the second record of the two-record
segment still sees metadata `0` (written as `6`, not `106`). -/
theorem bloark_chain_metadata_not_propagated :
    applyChain [qC2, qC2] 0 (some 5) = (some 5, false) ∧
    applyChainSpecModel [qC2, qC2] 0 (some 5) = (some 105, 2, false) ∧
    (applyChain [qC2, qC2] 0 (some 5)).1 ≠ (applyChainSpecModel [qC2, qC2] 0 (some 5)).1 ∧
    modify_warehouse [qC2] [(0, [5, 6])] = ([5, 6], [(0, 0, 2)]) := by
  refine ⟨rfl, rfl, ?_, rfl⟩
  simp [applyChain, applyChainSpecModel, qC2]

/-! ## C6: redirect detection in the builder accumulator -/

/-- C6: the guard `text_content[0] != '#REDIRECT'`
(`src/twb/builder.py:194`) compares a one-character string with the
nine-character marker and is therefore true for every non-empty text, so
the accumulator is updated by EVERY non-empty revision text — including
redirects; and a redirect-only article whose redirect text carries a
category line is finalized with a non-empty `categories` list,
contradicting the claim. -/
theorem builder_redirect_text_still_updates_accumulator :
    (∀ (acc : Accumulator) (revision_id : String) (t : List Char), 0 < t.length →
        updateTextAccumulator acc revision_id t =
          { source_revision := some revision_id, last_valid_text_content := some t }) ∧
    ("#REDIRECT [[Other]]\n[[Category:Foo]]".toList.take 9 = "#REDIRECT".toList ∧
      finalize_categories
        (updateTextAccumulator ⟨none, none⟩ "1"
          "#REDIRECT [[Other]]\n[[Category:Foo]]".toList) = ["Foo".toList]) := by
  refine ⟨?_, by decide, by decide⟩
  intro acc revision_id t ht
  have hne : t.take 1 ≠ "#REDIRECT".toList := by
    intro h
    have hlen := congrArg List.length h
    simp at hlen
    omega
  rw [updateTextAccumulator, if_pos ⟨ht, hne⟩]

/-- Witness for C6's universally quantified part. -/
theorem builder_redirect_text_still_updates_accumulator_witness :
    updateTextAccumulator ⟨none, none⟩ "9" ['a'] =
      { source_revision := some "9", last_valid_text_content := some ['a'] } :=
  builder_redirect_text_still_updates_accumulator.1 ⟨none, none⟩ "9" ['a'] (by decide)

/-! ## C7: releasing a warehouse that is not occupied -/

/-- C7: releasing a base name that is not in the occupied list raises inside
the `try` of `src/twb/warehouse.py:129-143` before any mutation, the
`except` logs the error, and the function returns `None`: the allocator
state (occupied, available, indexer) is unchanged, the error is reported,
the result is `None`. -/
theorem release_warehouse_unknown_base_noop
    (fsBytes : String → Nat) (st : WarehouseState) (w : String)
    (h : w ∉ st.occupied_warehouses) :
    release_warehouse fsBytes st w = (st, none, true) := by
  simp [release_warehouse, h]

/-- Witness for C7: a second release of `warehouse_00000` (already released,
so no longer occupied) is a no-op that reports the error. -/
theorem release_warehouse_unknown_base_noop_witness :
    release_warehouse (fun _ => 0) stC7 "warehouse_00000" = (stC7, none, true) :=
  release_warehouse_unknown_base_noop _ _ _ (by decide)

/-! ## C5: the pack step and metadata/payload consistency -/

/-- C5: packing a processed article file that holds the single record line
`rec\n` (the builder writes `json.dumps(record) + '\n'`,
`src/twb/builder.py:190`) appends `rec\n\n` to the warehouse — the copy
loop writes `line + '\n'` although `line` already ends with a newline
(`src/twb/builder.py:240-241`) — and emits the metadata byte range
`[0, 5)`.  That range contains a blank line, so it does not decode as a
non-empty sequence of JSON lines: no non-empty list of non-empty,
newline-free lines concatenates (each followed by one newline) to the
range.  The downstream reader of these ranges
(`src/twb/modifier.py:106-107`) would indeed crash on the blank line. -/
theorem warehouse_executor_blank_line_breaks_jsonl :
    (warehouse_executor [] [(processedFileContent ["rec".toList], (0 : Nat))]).1
        = "rec\n\n".toList ∧
    (warehouse_executor [] [(processedFileContent ["rec".toList], (0 : Nat))]).2
        = [(0, 0, 5)] ∧
    ¬ ∃ lines, decodesAsJsonlLines (("rec\n\n".toList.drop 0).take (5 - 0)) lines := by
  refine ⟨by decide, by decide, ?_⟩
  rintro ⟨lines, hne, hvalid, heq⟩
  have hrange : ("rec\n\n".toList.drop 0).take (5 - 0) = "rec\n\n".toList := by decide
  rw [hrange] at heq
  have hsplit := splitNl_join_lines lines (fun l hl => (hvalid l hl).2)
  rw [← heq] at hsplit
  have hval : splitNl ("rec\n\n".toList) = [['r', 'e', 'c'], [], []] := by decide
  rw [hval] at hsplit
  rcases lines with _ | ⟨a, _ | ⟨b, _ | ⟨c0, rest⟩⟩⟩ <;> simp_all

/-! ## C9: the glimpse shape function -/

theorem parse_entries_eq_map (es : List (String × PyVal)) :
    parse_entries es = es.map (fun p => (p.1, parse_schema p.2)) := by
  induction es with
  | nil => simp [parse_entries]
  | cons p es ih =>
      obtain ⟨k, v⟩ := p
      simp [parse_entries, ih]

/-- C9: `parse_schema` maps a non-empty dict to the dict of its keys mapped
to the shapes of their values, a non-empty list to
`[shape_of_first, length]`, empty containers to `"empty"`, scalars to their
Python type name — and on `{"a": 1, "b": ["x", "y"], "c": {}}` yields
`{"a": "int", "b": ["str", 2], "c": "empty"}`
(`src/bloark/utils.py:317-336`). -/
theorem parse_schema_shape_rules :
    (∀ es, es ≠ [] →
        parse_schema (.pyDict es) = .dict (es.map (fun p => (p.1, parse_schema p.2)))) ∧
    parse_schema (.pyDict []) = .name "empty" ∧
    (∀ x xs, parse_schema (.pyList (x :: xs)) =
        .listShape (parse_schema x) (x :: xs).length) ∧
    parse_schema (.pyList []) = .name "empty" ∧
    (∀ n, parse_schema (.pyInt n) = .name "int") ∧
    (∀ s, parse_schema (.pyStr s) = .name "str") ∧
    (∀ b, parse_schema (.pyBool b) = .name "bool") ∧
    parse_schema .pyNone = .name "NoneType" ∧
    parse_schema .pyFloat = .name "float" ∧
    parse_schema (.pyDict
        [("a", .pyInt 1), ("b", .pyList [.pyStr "x", .pyStr "y"]), ("c", .pyDict [])]) =
      .dict [("a", .name "int"), ("b", .listShape (.name "str") 2), ("c", .name "empty")] := by
  refine ⟨?_, by simp [parse_schema], by intro x xs; simp [parse_schema], by simp [parse_schema],
    by intro n; simp [parse_schema], by intro s; simp [parse_schema],
    by intro b; simp [parse_schema], by simp [parse_schema], by simp [parse_schema],
    by simp [parse_schema, parse_entries]⟩
  intro es hes
  rw [← parse_entries_eq_map]
  have : es.isEmpty = false := by simpa using hes
  simp [parse_schema, this]

/-- Witness for C9's non-empty-dict clause. -/
theorem parse_schema_shape_rules_witness :
    parse_schema (.pyDict [("a", .pyInt 1)]) =
      .dict ([("a", PyVal.pyInt 1)].map (fun p => (p.1, parse_schema p.2))) :=
  parse_schema_shape_rules.1 [("a", .pyInt 1)] (List.cons_ne_nil _ _)

/-! ## C10: `get_file_list` on a regular file -/

theorem mem_insertStr (a x : String) (l : List String) :
    a ∈ insertStr x l ↔ a = x ∨ a ∈ l := by
  induction l with
  | nil => simp [insertStr]
  | cons y ys ih =>
      simp only [insertStr]
      by_cases h : strLeb x y
      · simp [h]
      · simp only [if_neg h, List.mem_cons, ih]
        tauto

theorem mem_sortStrings (a : String) (l : List String) :
    a ∈ sortStrings l ↔ a ∈ l := by
  induction l with
  | nil => simp [sortStrings]
  | cons x xs ih => simp [sortStrings, mem_insertStr, ih]

theorem walkDir_shape (base : String) (entries : List (String × FSEntry)) :
    ∀ f ∈ walkDir base entries, ∃ d n, f = d ++ "/" ++ n ∧ startsDot n = false := by
  induction base, entries using walkDir.induct with
  | case1 base => simp [walkDir]
  | case2 base n rest ih =>
      intro f hf
      simp only [walkDir, List.mem_append] at hf
      rcases hf with hf | hf
      · by_cases h : startsDot n
        · simp [h] at hf
        · simp only [if_neg h, List.mem_singleton] at hf
          exact ⟨base, n, hf, by simpa using h⟩
      · exact ih f hf
  | case3 base n es rest ih1 ih2 =>
      intro f hf
      simp only [walkDir, List.mem_append] at hf
      rcases hf with hf | hf
      · exact ih1 f hf
      · exact ih2 f hf

/-- C10: a regular-file path is returned as the one-element list containing
exactly that path (`src/bloark/utils.py:59-60`) — no dot-file skipping, no
extension filtering — whereas for a directory every returned path passed
the extension filter and names a file whose basename does not start with a
dot (`src/bloark/utils.py:63-80`). -/
theorem get_file_list_file_branch_unfiltered :
    (∀ (input_path : String) (extensions : Option (List String)),
        get_file_list input_path .file extensions = [input_path]) ∧
    (∀ (base : String) (entries : List (String × FSEntry))
        (extensions : Option (List String)) (f : String),
        f ∈ get_file_list base (.dir entries) extensions →
        endswith_extensions extensions f = true ∧
        ∃ d n, f = d ++ "/" ++ n ∧ startsDot n = false) := by
  refine ⟨fun _ _ => rfl, ?_⟩
  intro base entries extensions f hf
  rw [get_file_list, mem_sortStrings] at hf
  have hfilter := List.of_mem_filter hf
  have hmem : f ∈ (walkDir base entries).dedup := List.mem_of_mem_filter hf
  exact ⟨hfilter, walkDir_shape base entries f (List.mem_dedup.mp hmem)⟩

theorem walkDirC10 : walkDir "d" treeC10 = ["d/a.txt", "d/sub/b.xml"] := by
  have h1 : startsDot "a.txt" = false := by decide
  have h2 : startsDot ".hidden" = true := by decide
  have h3 : startsDot "b.xml" = false := by decide
  simp [treeC10, walkDir, h1, h2, h3]

theorem memC10 : "d/sub/b.xml" ∈ get_file_list "d" (.dir treeC10) (some [".xml"]) := by
  rw [get_file_list, mem_sortStrings]
  refine List.mem_filter.mpr ⟨List.mem_dedup.mpr ?_, by decide⟩
  rw [walkDirC10]
  simp

/-- Witness for C10: the file branch at a dot-named file with a
non-matching extension, and the directory branch at `treeC10`. -/
theorem get_file_list_file_branch_unfiltered_witness :
    get_file_list ".hidden" .file (some [".xml"]) = [".hidden"] ∧
    (endswith_extensions (some [".xml"]) "d/sub/b.xml" = true ∧
      ∃ d n, "d/sub/b.xml" = d ++ "/" ++ n ∧ startsDot n = false) :=
  ⟨get_file_list_file_branch_unfiltered.1 ".hidden" (some [".xml"]),
    get_file_list_file_branch_unfiltered.2 "d" treeC10 (some [".xml"]) "d/sub/b.xml"
      memC10⟩

/-! ## C3: `bulk_assign` admission and choice -/

theorem mem_insertDesc (a x : String × ℚ) (l : List (String × ℚ)) :
    a ∈ insertDesc x l ↔ a = x ∨ a ∈ l := by
  induction l with
  | nil => simp [insertDesc]
  | cons y ys ih =>
      simp only [insertDesc]
      by_cases h : y.2 ≤ x.2
      · simp [h]
      · simp only [if_neg h, List.mem_cons, ih]
        tauto

theorem mem_sortDesc (a : String × ℚ) (l : List (String × ℚ)) :
    a ∈ sortDesc l ↔ a ∈ l := by
  induction l with
  | nil => simp [sortDesc]
  | cons x xs ih => simp [sortDesc, mem_insertDesc, ih]

theorem pairwise_insertDesc (x : String × ℚ) (l : List (String × ℚ))
    (h : l.Pairwise (fun a b => b.2 ≤ a.2)) :
    (insertDesc x l).Pairwise (fun a b => b.2 ≤ a.2) := by
  induction l with
  | nil => simp [insertDesc]
  | cons y ys ih =>
      rcases List.pairwise_cons.mp h with ⟨hy, hys⟩
      simp only [insertDesc]
      by_cases hxy : y.2 ≤ x.2
      · simp only [if_pos hxy]
        refine List.Pairwise.cons ?_ h
        intro b hb
        rcases List.mem_cons.mp hb with rfl | hb
        · exact hxy
        · exact le_trans (hy b hb) hxy
      · simp only [if_neg hxy]
        refine List.Pairwise.cons ?_ (ih hys)
        intro b hb
        rcases (mem_insertDesc b x ys).mp hb with rfl | hb
        · exact le_of_not_le hxy
        · exact hy b hb

theorem pairwise_sortDesc (l : List (String × ℚ)) :
    (sortDesc l).Pairwise (fun a b => b.2 ≤ a.2) := by
  induction l with
  | nil => simp [sortDesc]
  | cons x xs ih => exact pairwise_insertDesc x (sortDesc xs) ih

theorem sync_go_pos (ms : ℚ) (ws : List String) (rem : List (String × ℚ)) :
    ∀ p ∈ (sync_go ms ws rem).2, 0 < p.2 := by
  induction ws generalizing rem with
  | nil => simp [sync_go]
  | cons w ws ih =>
      intro p hp
      simp only [sync_go] at hp
      split_ifs at hp with h1 h2 h3
      · rcases List.mem_cons.mp hp with rfl | hp
        · exact h2
        · exact ih _ p hp
      · exact ih _ p hp
      · rcases List.mem_cons.mp hp with rfl | hp
        · exact h3
        · exact ih _ p hp
      · exact ih _ p hp

theorem sync_warehouses_pos (st : WarehouseState) (rem : List (String × ℚ)) :
    ∀ p ∈ (sync_warehouses st rem).2, 0 < p.2 := by
  intro p hp
  rw [sync_warehouses] at hp
  exact sync_go_pos st.max_size (free_warehouses st) rem p ((mem_sortDesc p _).mp hp)

theorem sync_warehouses_pairwise (st : WarehouseState) (rem : List (String × ℚ)) :
    (sync_warehouses st rem).2.Pairwise (fun a b => b.2 ≤ a.2) := by
  rw [sync_warehouses]
  exact pairwise_sortDesc _

theorem ensure_acceptable_spec (st : WarehouseState) (rem : List (String × ℚ))
    (st1 : WarehouseState) (rem1 acc : List (String × ℚ))
    (h : ensure_acceptable st rem = some (st1, rem1, acc)) :
    (∀ p ∈ acc, 0 < p.2) ∧ acc.Pairwise (fun a b => b.2 ≤ a.2) ∧
    ((sync_warehouses st rem).2 ≠ [] → st1 = st) ∧
    ((sync_warehouses st rem).2 = [] → st1 = create_warehouse st) := by
  rw [ensure_acceptable] at h
  split_ifs at h with h1
  · have h' : st = st1 ∧ sync_warehouses st rem = (rem1, acc) := by simpa using h
    obtain ⟨rfl, hsw⟩ := h'
    have hr2 : (sync_warehouses st rem).2 = acc := by rw [hsw]
    rw [← hr2]
    exact ⟨sync_warehouses_pos st rem, sync_warehouses_pairwise st rem,
      fun _ => rfl, fun hc => absurd hc h1⟩
  · have h' : ¬(sync_warehouses (create_warehouse st) (sync_warehouses st rem).1).2 = [] ∧
        create_warehouse st = st1 ∧
        sync_warehouses (create_warehouse st) (sync_warehouses st rem).1 = (rem1, acc) := by
      simpa using h
    obtain ⟨-, rfl, hsw⟩ := h'
    have hr2 : (sync_warehouses (create_warehouse st) (sync_warehouses st rem).1).2 = acc := by
      rw [hsw]
    rw [← hr2]
    refine ⟨sync_warehouses_pos _ _, sync_warehouses_pairwise _ _, fun hc => absurd ?_ hc,
      fun _ => rfl⟩
    simpa using h1

/-- C3 (amended): at every step of the `bulk_assign` file loop, the
warehouse chosen for the current file is the head of the acceptable list —
a warehouse whose remaining capacity is positive (NOT necessarily at least
the file's size, see `bulk_assign_admits_oversize_file`) and maximal among
all acceptable warehouses — and a new warehouse is created exactly when no
free warehouse has positive remaining capacity
(`src/twb/warehouse.py:83-123`). -/
theorem bulk_assign_step_picks_max_positive_remaining
    (st : WarehouseState) (rem : List (String × ℚ)) (w : String) (r : ℚ)
    (st1 : WarehouseState) (rem1 : List (String × ℚ))
    (h : bulk_assign_step st rem = some (w, r, st1, rem1)) :
    0 < r ∧
    (∃ acc, ensure_acceptable st rem = some (st1, rem1, acc) ∧
      acc.head? = some (w, r) ∧ ∀ p ∈ acc, p.2 ≤ r) ∧
    ((sync_warehouses st rem).2 ≠ [] → st1 = st) ∧
    ((sync_warehouses st rem).2 = [] →
      st1 = create_warehouse st ∧ st1.warehouse_indexer = st.warehouse_indexer + 1) := by
  have hEx : ∃ acc, ensure_acceptable st rem = some (st1, rem1, acc) ∧
      acc.head? = some (w, r) := by
    rw [bulk_assign_step] at h
    rcases hE : ensure_acceptable st rem with _ | ⟨st2, rem2, acc⟩
    · rw [hE] at h; exact absurd h (by simp)
    · rw [hE] at h
      rcases hacc : acc with _ | ⟨⟨wh, rh⟩, tl⟩
      · rw [hacc] at h; exact absurd h (by simp)
      · rw [hacc] at h
        simp only [Option.some.injEq, Prod.mk.injEq] at h
        obtain ⟨hw, hr, hst, hrem⟩ := h
        exact ⟨acc, by rw [hst, hrem, hacc], by rw [hacc, hw, hr]; rfl⟩
  obtain ⟨acc, hE, hhead⟩ := hEx
  obtain ⟨hpos, hpair, hne, hnil⟩ := ensure_acceptable_spec st rem st1 rem1 acc hE
  rcases acc with _ | ⟨hd, tl⟩
  · simp at hhead
  · have hd_eq : hd = (w, r) := by simpa using hhead
    subst hd_eq
    refine ⟨hpos _ (List.mem_cons_self _ _), ⟨(w, r) :: tl, hE, rfl, ?_⟩, hne,
      fun hc => ⟨hnil hc, by rw [hnil hc]; rfl⟩⟩
    intro p hp
    rcases List.mem_cons.mp hp with rfl | hp
    · exact le_refl _
    · exact (List.pairwise_cons.mp hpair).1 p hp

theorem initRemC3_eval : initRem fsC3 stC3 = remC3 := by
  have e1 : "warehouse_00000" ++ ".jsonl" = "warehouse_00000.jsonl" := by decide
  norm_num [initRem, free_warehouses, stC3, get_warehouse_filenames, e1, get_file_size,
    fsC3, remC3]

theorem stepC3_eval :
    bulk_assign_step stC3 (initRem fsC3 stC3) =
      some ("warehouse_00000", 1, stC3, remC3) := by
  rw [initRemC3_eval]
  norm_num [bulk_assign_step, ensure_acceptable, sync_warehouses, sync_go, free_warehouses,
    remLookup, sortDesc, insertDesc, stC3, remC3]

/-- Witness for C3's amended theorem at the counterexample allocator
state. -/
theorem bulk_assign_step_picks_max_positive_remaining_witness :
    0 < (1 : ℚ) ∧
    (∃ acc, ensure_acceptable stC3 (initRem fsC3 stC3) = some (stC3, remC3, acc) ∧
      acc.head? = some ("warehouse_00000", (1 : ℚ)) ∧ ∀ p ∈ acc, p.2 ≤ (1 : ℚ)) ∧
    ((sync_warehouses stC3 (initRem fsC3 stC3)).2 ≠ [] → stC3 = stC3) ∧
    ((sync_warehouses stC3 (initRem fsC3 stC3)).2 = [] →
      stC3 = create_warehouse stC3 ∧
        stC3.warehouse_indexer = stC3.warehouse_indexer + 1) :=
  bulk_assign_step_picks_max_positive_remaining stC3 (initRem fsC3 stC3)
    "warehouse_00000" 1 stC3 remC3 stepC3_eval

/-- C3 (counterexample): with a 10 GB cap, a free warehouse already holding
9 GB (remaining capacity 1 GB) and a 5 GB input file, `bulk_assign` still
assigns the file to that warehouse — the admission test of
`src/twb/warehouse.py:102` is `remaining > 0`, not
`remaining >= file_size` — refuting the claim that a file is assigned only
to a warehouse whose remaining capacity is at least the file's size. -/
theorem bulk_assign_admits_oversize_file :
    bulk_assign fsC3 stC3 ["f"] =
      some ([("warehouse_00000", ["f"])],
        { stC3 with occupied_warehouses := ["warehouse_00000"] }) ∧
    stC3.max_size - get_file_size fsC3 (get_warehouse_filenames "warehouse_00000").1 <
      get_file_size fsC3 "f" := by
  constructor
  · rw [bulk_assign]
    simp only [bulk_assign_go, stepC3_eval]
    norm_num [assignInsert, stC3]
  · have e1 : "warehouse_00000" ++ ".jsonl" = "warehouse_00000.jsonl" := by decide
    have e2 : "f" ≠ "warehouse_00000.jsonl" := by decide
    norm_num [get_file_size, get_warehouse_filenames, fsC3, stC3, e1, e2]

/-! ## C4: sealing on release -/

/-- C4 (counterexample): with `max_size` 12 and a payload of 12 bytes, the
payload's length in bytes reaches `max_size`, yet `release_warehouse` does
not seal the warehouse and returns `None` — `src/twb/warehouse.py:137`
compares `max_size` against `get_file_size`, i.e. the length divided by
`1000 ** 3` (0.000000012 here), not the length in bytes.  This refutes the
claim that sealing happens exactly when the byte length reaches
`max_size`. -/
theorem release_warehouse_no_seal_at_max_size_bytes :
    stC4.max_size ≤ (fsC4 (get_warehouse_filenames "warehouse_00000").1 : ℚ) ∧
    "warehouse_00000" ∈
      (release_warehouse fsC4 stC4 "warehouse_00000").1.available_warehouses ∧
    (release_warehouse fsC4 stC4 "warehouse_00000").2.1 = none := by
  have e1 : "warehouse_00000" ++ ".jsonl" = "warehouse_00000.jsonl" := by decide
  refine ⟨by norm_num [stC4, fsC4, get_warehouse_filenames, e1], ?_, ?_⟩ <;>
    norm_num [release_warehouse, get_file_size, get_warehouse_filenames, fsC4, stC4, e1]

/-- C4 (amended): for a warehouse that is occupied and available (with
distinct available entries), `release_warehouse` removes it from the
occupied list, reports no error, removes it from the available list (seals
it) exactly when `get_file_size` of the payload — its byte length divided
by `1000 ** 3` — is at least `max_size`, and returns the payload filename
exactly when it sealed and `compress` is on
(`src/twb/warehouse.py:125-145`). -/
theorem release_warehouse_seals_at_gigabyte_threshold
    (fsBytes : String → Nat) (st : WarehouseState) (w : String)
    (hocc : w ∈ st.occupied_warehouses) (hav : w ∈ st.available_warehouses)
    (hnd : st.available_warehouses.Nodup) :
    (release_warehouse fsBytes st w).1.occupied_warehouses =
        st.occupied_warehouses.erase w ∧
    (release_warehouse fsBytes st w).2.2 = false ∧
    (w ∉ (release_warehouse fsBytes st w).1.available_warehouses ↔
      st.max_size ≤ get_file_size fsBytes (get_warehouse_filenames w).1) ∧
    (release_warehouse fsBytes st w).2.1 =
      (if st.max_size ≤ get_file_size fsBytes (get_warehouse_filenames w).1 ∧
          st.compress = true
        then some (get_warehouse_filenames w).1 else none) ∧
    (release_warehouse fsBytes st w).1.warehouse_indexer = st.warehouse_indexer ∧
    (release_warehouse fsBytes st w).1.max_size = st.max_size := by
  rw [release_warehouse, if_pos hocc]
  by_cases hsz : st.max_size ≤ get_file_size fsBytes (get_warehouse_filenames w).1
  · rw [if_pos hsz, if_pos hav]
    refine ⟨rfl, rfl, ?_, ?_, rfl, rfl⟩
    · simp only [hsz, iff_true]
      intro hc
      exact absurd ((List.Nodup.mem_erase_iff hnd).mp hc).1 (by simp)
    · by_cases hc : st.compress <;> simp [hc, hsz]
  · rw [if_neg hsz]
    refine ⟨rfl, rfl, ?_, ?_, rfl, rfl⟩
    · simp [hav, hsz]
    · simp [hsz]

/-- Witness for C4's amended theorem: a 12 GB payload against a 12 GB cap
with `compress` on is sealed and its filename returned. -/
theorem release_warehouse_seals_at_gigabyte_threshold_witness :
    (release_warehouse fsC4big stC4 "warehouse_00000").1.occupied_warehouses =
        stC4.occupied_warehouses.erase "warehouse_00000" ∧
    (release_warehouse fsC4big stC4 "warehouse_00000").2.2 = false ∧
    ("warehouse_00000" ∉
        (release_warehouse fsC4big stC4 "warehouse_00000").1.available_warehouses ↔
      stC4.max_size ≤ get_file_size fsC4big (get_warehouse_filenames "warehouse_00000").1) ∧
    (release_warehouse fsC4big stC4 "warehouse_00000").2.1 =
      (if stC4.max_size ≤
            get_file_size fsC4big (get_warehouse_filenames "warehouse_00000").1 ∧
          stC4.compress = true
        then some (get_warehouse_filenames "warehouse_00000").1 else none) ∧
    (release_warehouse fsC4big stC4 "warehouse_00000").1.warehouse_indexer =
        stC4.warehouse_indexer ∧
    (release_warehouse fsC4big stC4 "warehouse_00000").1.max_size = stC4.max_size :=
  release_warehouse_seals_at_gigabyte_threshold fsC4big stC4 "warehouse_00000"
    (by decide) (by decide) (by decide)

/-! ## C8: line positions -/

theorem readLine_append (cs : List Char) :
    (readLine cs).1 ++ (readLine cs).2 = cs := by
  induction cs with
  | nil => rfl
  | cons c cs ih =>
      simp only [readLine]
      by_cases h : c = '\n'
      · simp [h]
      · simp only [if_neg h, List.cons_append]
        rw [ih]

theorem readLine_fst_ne_nil (c : Char) (cs : List Char) :
    (readLine (c :: cs)).1 ≠ [] := by
  simp only [readLine]
  by_cases h : c = '\n' <;> simp [h]

theorem readLine_no_inner_newline (cs : List Char) :
    ∀ i, i + 1 < (readLine cs).1.length → ¬ (readLine cs).1[i]? = some '\n' := by
  induction cs with
  | nil => intro i h; simp [readLine] at h
  | cons c cs ih =>
      intro i h
      simp only [readLine] at h ⊢
      by_cases hc : c = '\n'
      · rw [if_pos hc] at h
        simp at h
      · rw [if_neg hc] at h ⊢
        cases i with
        | zero => simp [hc]
        | succ j =>
            simp only [List.getElem?_cons_succ]
            apply ih
            simpa using h

theorem readLine_last_newline (cs : List Char) (h : (readLine cs).2 ≠ []) :
    (readLine cs).1[(readLine cs).1.length - 1]? = some '\n' := by
  induction cs with
  | nil => simp [readLine] at h
  | cons c cs ih =>
      by_cases hc : c = '\n'
      · simp [readLine, hc]
      · have h2 : (readLine cs).2 ≠ [] := by
          simpa [readLine, hc] using h
        have hcs : cs ≠ [] := by
          intro hnil
          rw [hnil] at h2
          simp [readLine] at h2
        obtain ⟨d, ds, hd⟩ := List.exists_cons_of_ne_nil hcs
        have hne : (readLine cs).1 ≠ [] := by
          rw [hd]
          exact readLine_fst_ne_nil d ds
        have ihh := ih h2
        simp only [readLine, if_neg hc]
        obtain ⟨e, es, he⟩ := List.exists_cons_of_ne_nil hne
        rw [he] at ihh ⊢
        simp only [List.length_cons, Nat.add_sub_cancel] at ihh ⊢
        rw [List.getElem?_cons_succ]
        exact ihh

theorem linePositionsGo_step (fuel pos : Nat) (content : List Char) (h : content ≠ []) :
    linePositionsGo (fuel + 1) pos content =
      pos :: linePositionsGo fuel (pos + (readLine content).1.length)
        (readLine content).2 := by
  obtain ⟨c, cs, rfl⟩ := List.exists_cons_of_ne_nil h
  obtain ⟨d, ds, hd⟩ := List.exists_cons_of_ne_nil (readLine_fst_ne_nil c cs)
  simp only [linePositionsGo]
  rw [show readLine (c :: cs) = (d :: ds, (readLine (c :: cs)).2) from by rw [← hd]]

theorem linePositionsGo_mem (fuel : Nat) :
    ∀ (pos : Nat) (content : List Char), content.length < fuel →
      ∀ p, p ∈ linePositionsGo fuel pos content ↔
        (pos ≤ p ∧ p - pos < content.length ∧
          (p = pos ∨ content[p - pos - 1]? = some '\n')) := by
  induction fuel with
  | zero => intro pos content h; exact absurd h (Nat.not_lt_zero _)
  | succ fuel ih =>
      intro pos content hlt p
      rcases eq_or_ne content [] with rfl | hne
      · simp [linePositionsGo, readLine]
      · have hstep := linePositionsGo_step fuel pos content hne
        obtain ⟨ln, rest, hlr⟩ : ∃ l r, readLine content = (l, r) := ⟨_, _, rfl⟩
        have h1st : (readLine content).1 = ln := by rw [hlr]
        have h2nd : (readLine content).2 = rest := by rw [hlr]
        rw [h1st, h2nd] at hstep
        have hAp : ln ++ rest = content := by
          rw [← h1st, ← h2nd]
          exact readLine_append content
        have hL1 : 1 ≤ ln.length := by
          obtain ⟨c, cs, hc⟩ := List.exists_cons_of_ne_nil hne
          have := readLine_fst_ne_nil c cs
          rw [← hc, h1st] at this
          exact List.length_pos.mpr this
        have hsum : ln.length + rest.length = content.length := by
          have := congrArg List.length hAp
          simpa using this
        have hgetL : ∀ i, i < ln.length → content[i]? = ln[i]? := by
          intro i hi
          rw [← hAp]
          exact List.getElem?_append_left hi
        have hgetR : ∀ i, ln.length ≤ i → content[i]? = rest[i - ln.length]? := by
          intro i hi
          rw [← hAp]
          exact List.getElem?_append_right hi
        have hrest_lt : rest.length < fuel := by omega
        rw [hstep, List.mem_cons, ih (pos + ln.length) rest hrest_lt p]
        constructor
        · rintro (rfl | ⟨h1, h2, h3⟩)
          · exact ⟨le_refl _, by omega, Or.inl rfl⟩
          · refine ⟨by omega, by omega, Or.inr ?_⟩
            by_cases hpL : p = pos + ln.length
            · have hrne : rest ≠ [] := by
                intro hr0
                rw [hr0] at h2
                simp at h2
              have hlast := readLine_last_newline content (by rw [h2nd]; exact hrne)
              rw [h1st] at hlast
              have hidx : p - pos - 1 = ln.length - 1 := by omega
              rw [hidx, hgetL _ (by omega)]
              exact hlast
            · rcases h3 with h3 | h3
              · exact absurd h3 hpL
              · rw [hgetR _ (by omega)]
                have hidx : p - pos - 1 - ln.length =
                    p - (pos + ln.length) - 1 := by omega
                rw [hidx]
                exact h3
        · rintro ⟨h1, h2, h3⟩
          by_cases hp : p = pos
          · exact Or.inl hp
          · right
            rcases h3 with h3 | h3
            · exact absurd h3 hp
            · by_cases hlt2 : p - pos < ln.length
              · exfalso
                have hnn := readLine_no_inner_newline content (p - pos - 1)
                rw [h1st] at hnn
                apply hnn (by omega)
                rw [hgetL _ (by omega)] at h3
                exact h3
              · refine ⟨by omega, by omega, ?_⟩
                by_cases hpe : p = pos + ln.length
                · exact Or.inl hpe
                · right
                  rw [hgetR _ (by omega)] at h3
                  have hidx : p - pos - 1 - ln.length =
                      p - (pos + ln.length) - 1 := by omega
                  rw [hidx] at h3
                  exact h3

theorem linePositionsGo_ge (fuel : Nat) :
    ∀ (pos : Nat) (content : List Char), ∀ q ∈ linePositionsGo fuel pos content,
      pos ≤ q := by
  induction fuel with
  | zero => intro pos content q hq; simp [linePositionsGo] at hq
  | succ fuel ih =>
      intro pos content q hq
      rcases eq_or_ne content [] with rfl | hne
      · simp [linePositionsGo, readLine] at hq
      · rw [linePositionsGo_step fuel pos content hne, List.mem_cons] at hq
        rcases hq with rfl | hq
        · exact le_refl _
        · exact le_trans (Nat.le_add_right pos _) (ih _ _ q hq)

theorem linePositionsGo_sorted (fuel : Nat) :
    ∀ (pos : Nat) (content : List Char),
      (linePositionsGo fuel pos content).Sorted (· < ·) := by
  induction fuel with
  | zero => intro pos content; simp [linePositionsGo]
  | succ fuel ih =>
      intro pos content
      rcases eq_or_ne content [] with rfl | hne
      · simp [linePositionsGo, readLine]
      · rw [linePositionsGo_step fuel pos content hne]
        refine List.sorted_cons.mpr ⟨?_, ih _ _⟩
        intro q hq
        have h1 := linePositionsGo_ge fuel (pos + (readLine content).1.length)
          (readLine content).2 q hq
        have h2 : 1 ≤ (readLine content).1.length := by
          obtain ⟨c, cs, rfl⟩ := List.exists_cons_of_ne_nil hne
          exact List.length_pos.mpr (readLine_fst_ne_nil c cs)
        omega

/-- C8 (counterexample): on the content `"a\n\nb\n"`, whose second line is
empty, `get_line_positions` returns `[0, 2, 3]` — the offset `2` of the
empty line included — while the spec's non-empty-line offsets are `[0, 3]`.
The `if len(line) > 0` guard of `src/bloark/utils.py:245` never fires:
`readline()` returns `"\n"` (length 1) for an empty line. -/
theorem get_line_positions_includes_empty_lines :
    get_line_positions ("a\n\nb\n".toList) = [0, 2, 3] ∧
    nonEmptyLinePositionsSpecModel ("a\n\nb\n".toList) = [0, 3] ∧
    get_line_positions ("a\n\nb\n".toList) ≠
      nonEmptyLinePositionsSpecModel ("a\n\nb\n".toList) := by
  exact ⟨by decide, by decide, by decide⟩

/-- C8 (amended): `get_line_positions` returns, in strictly ascending
order, exactly the byte offsets at which a line starts — offset `0` and
every offset following a newline byte — including the offsets of empty
lines (`src/bloark/utils.py:223-250`). -/
theorem get_line_positions_all_line_starts (content : List Char) :
    (get_line_positions content).Sorted (· < ·) ∧
    ∀ p, p ∈ get_line_positions content ↔
      p < content.length ∧ (p = 0 ∨ content[p - 1]? = some '\n') := by
  refine ⟨linePositionsGo_sorted _ _ _, fun p => ?_⟩
  rw [get_line_positions,
    linePositionsGo_mem (content.length + 1) 0 content (by omega) p]
  simp [Nat.sub_zero]

/-- Witness for C8's amended characterization at a concrete content and
offset. -/
theorem get_line_positions_all_line_starts_witness :
    2 ∈ get_line_positions ("a\n\nb\n".toList) ↔
      2 < ("a\n\nb\n".toList).length ∧
        (2 = 0 ∨ ("a\n\nb\n".toList)[2 - 1]? = some '\n') :=
  (get_line_positions_all_line_starts ("a\n\nb\n".toList)).2 2
